import Mathlib

/-!
Shallow embedding of src/main.py, a sheet-music scale and arpeggio
generator.  The embedded fragments are the enharmonic rewrite table
ENHARM_MAP together with fix_enharmonic_spelling, the measure-packing
loops of create_scale_measures and create_arpeggio_measures, and the
pitch collections those functions build.  The music21 scale-pitch
enumerator is an external collaborator of the program; where a claim
needs it, it is modelled from the specification.
-/

/-- The seven natural letter names of a pitch. -/
inductive Letter
  | C | D | E | F | G | A | B
  deriving DecidableEq, Repr

/-- A notated pitch: letter, accidental offset in semitones, octave in
scientific pitch notation, plus the accidental display fields that
fix_enharmonic_spelling touches.  In music21 a pitch whose accidental
is None corresponds to acc = 0 here, and setting pitch.name to a bare
letter clears the accidental to 0. -/
structure Pitch where
  letter : Letter
  acc : Int
  octave : Int
  displayStatus : Option Bool := none
  displayType : String := "normal"
  deriving DecidableEq, Repr

/-- Index of a letter, C-based, matching the scientific-pitch
convention that the octave number increments at C. -/
def letterIdx : Letter → Nat
  | .C => 0 | .D => 1 | .E => 2 | .F => 3 | .G => 4 | .A => 5 | .B => 6

/-- Semitone value of the natural letter inside one octave. -/
def letterSemis : Letter → Int
  | .C => 0 | .D => 2 | .E => 4 | .F => 5 | .G => 7 | .A => 9 | .B => 11

/-- Letter with the given C-based index (defined for 0..6). -/
def letterOfIdx : Nat → Letter
  | 0 => .C | 1 => .D | 2 => .E | 3 => .F | 4 => .G | 5 => .A | _ => .B

/-- Absolute semitone height of a pitch, the deterministic function of
(letter, accidental, octave) named by the specification (MIDI-style:
C4 has height 60). -/
def height (p : Pitch) : Int :=
  12 * (p.octave + 1) + letterSemis p.letter + p.acc

/-- Character of a letter name, as music21 prints it. -/
def letterChar : Letter → Char
  | .C => 'C' | .D => 'D' | .E => 'E' | .F => 'F' | .G => 'G' | .A => 'A' | .B => 'B'

/-- Accidental part of a music21 pitch name: one hash mark per sharp
semitone and one hyphen per flat semitone; music21 never prints a flat
as the letter b. -/
def accidentalChars (a : Int) : List Char :=
  if 0 < a then List.replicate a.toNat '#'
  else if a < 0 then List.replicate (-a).toNat '-'
  else []

/-- The music21 pitch.name read by fix_enharmonic_spelling: the letter
followed by the accidental marks (octave not included). -/
def pitchName (p : Pitch) : String :=
  ⟨letterChar p.letter :: accidentalChars p.acc⟩

/-- ENHARM_MAP from src/main.py: pitch name to (new name, octave
adjustment), keys written exactly as in the source dict. -/
def ENHARM_MAP : List (String × String × Int) :=
  [("E#", ("F", 0)), ("B#", ("C", 1)), ("Cb", ("B", -1)), ("Fb", ("E", 0))]

/-- Letter named by a bare-letter pitch name (the ENHARM_MAP targets). -/
def letterOfName (s : String) : Letter :=
  if s = "C" then .C else if s = "D" then .D else if s = "E" then .E
  else if s = "F" then .F else if s = "G" then .G else if s = "A" then .A else .B

/-- Embedding of fix_enharmonic_spelling from src/main.py.  The dict
lookup is keyed on the music21 pitch name, so an entry fires only when
some pitch name equals its key; a hit assigns the bare target name,
which clears the accidental to 0, and adjusts the octave.  Afterwards
the source forces the accidental display fields on every note that
still carries an accidental. -/
def fix_enharmonic_spelling (p : Pitch) : Pitch :=
  let q :=
    match ENHARM_MAP.lookup (pitchName p) with
    | some (new_name, octave_adjust) =>
        { p with letter := letterOfName new_name, acc := 0,
                 octave := p.octave + octave_adjust }
    | none => p
  if q.acc ≠ 0 then
    { q with displayStatus := some true, displayType := "normal" }
  else q

/-- The live part of the table step: music21 names flats with a
hyphen, so only the E sharp and B sharp entries can ever match. -/
def enharmStep (p : Pitch) : Pitch :=
  if p.letter = Letter.E ∧ p.acc = 1 then
    { p with letter := Letter.F, acc := 0, octave := p.octave + 0 }
  else if p.letter = Letter.B ∧ p.acc = 1 then
    { p with letter := Letter.C, acc := 0, octave := p.octave + 1 }
  else p

/-- The display-forcing step of fix_enharmonic_spelling. -/
def forceDisplay (p : Pitch) : Pitch :=
  if p.acc ≠ 0 then { p with displayStatus := some true, displayType := "normal" } else p

/-- String equality is equality of the underlying character lists. -/
theorem string_data_eq (s t : String) : s = t ↔ s.data = t.data := by
  constructor
  · intro h; rw [h]
  · intro h; cases s; cases t; exact congrArg String.mk h

/-- The accidental marks spell a single sharp exactly when the
accidental is +1. -/
theorem accidentalChars_eq_sharp (a : Int) : accidentalChars a = ['#'] ↔ a = 1 := by
  unfold accidentalChars
  split_ifs with h1 h2
  · constructor
    · intro h
      have hl := congrArg List.length h
      simp only [List.length_replicate, List.length_cons, List.length_nil] at hl
      omega
    · intro h; subst h; rfl
  · constructor
    · intro h
      have hl := congrArg List.length h
      simp only [List.length_replicate, List.length_cons, List.length_nil] at hl
      rw [hl] at h
      exact absurd h (by decide)
    · intro h; exfalso; omega
  · constructor
    · intro h; exact absurd h (by decide)
    · intro h; exfalso; omega

/-- The accidental marks never spell the letter b. -/
theorem accidentalChars_ne_b (a : Int) : accidentalChars a ≠ ['b'] := by
  unfold accidentalChars
  split_ifs with h1 h2 <;> intro h
  · have hl := congrArg List.length h
    simp only [List.length_replicate, List.length_cons, List.length_nil] at hl
    rw [hl] at h
    exact absurd h (by decide)
  · have hl := congrArg List.length h
    simp only [List.length_replicate, List.length_cons, List.length_nil] at hl
    rw [hl] at h
    exact absurd h (by decide)
  · exact absurd h (by decide)

/-- A pitch is named E# exactly when its letter is E and its
accidental is +1. -/
theorem pitchName_eq_Esharp (p : Pitch) :
    pitchName p = "E#" ↔ p.letter = Letter.E ∧ p.acc = 1 := by
  obtain ⟨l, a, o, ds, dt⟩ := p
  rw [string_data_eq]
  show letterChar l :: accidentalChars a = ['E', '#'] ↔ l = Letter.E ∧ a = 1
  constructor
  · intro h
    injection h with h1 h2
    refine ⟨?_, (accidentalChars_eq_sharp a).mp h2⟩
    cases l <;> simp only [letterChar] at h1 <;>
      first | rfl | exact absurd h1 (by decide)
  · rintro ⟨rfl, rfl⟩
    rfl

/-- A pitch is named B# exactly when its letter is B and its
accidental is +1. -/
theorem pitchName_eq_Bsharp (p : Pitch) :
    pitchName p = "B#" ↔ p.letter = Letter.B ∧ p.acc = 1 := by
  obtain ⟨l, a, o, ds, dt⟩ := p
  rw [string_data_eq]
  show letterChar l :: accidentalChars a = ['B', '#'] ↔ l = Letter.B ∧ a = 1
  constructor
  · intro h
    injection h with h1 h2
    refine ⟨?_, (accidentalChars_eq_sharp a).mp h2⟩
    cases l <;> simp only [letterChar] at h1 <;>
      first | rfl | exact absurd h1 (by decide)
  · rintro ⟨rfl, rfl⟩
    rfl

/-- No pitch name ever equals the dict key Cb: music21 spells the flat
with a hyphen. -/
theorem pitchName_ne_Cb (p : Pitch) : pitchName p ≠ "Cb" := by
  obtain ⟨l, a, o, ds, dt⟩ := p
  intro h
  rw [string_data_eq] at h
  have h3 : letterChar l :: accidentalChars a = ['C', 'b'] := h
  injection h3 with h1 h2
  exact absurd h2 (accidentalChars_ne_b a)

/-- No pitch name ever equals the dict key Fb: music21 spells the flat
with a hyphen. -/
theorem pitchName_ne_Fb (p : Pitch) : pitchName p ≠ "Fb" := by
  obtain ⟨l, a, o, ds, dt⟩ := p
  intro h
  rw [string_data_eq] at h
  have h3 : letterChar l :: accidentalChars a = ['F', 'b'] := h
  injection h3 with h1 h2
  exact absurd h2 (accidentalChars_ne_b a)

/-- Lookup characterization: only the E# and B# entries of ENHARM_MAP
can match a pitch name; the Cb and Fb keys are dead. -/
theorem lookup_pitchName (p : Pitch) :
    ENHARM_MAP.lookup (pitchName p) =
      (if p.letter = Letter.E ∧ p.acc = 1 then some ("F", 0)
       else if p.letter = Letter.B ∧ p.acc = 1 then some ("C", 1)
       else none) := by
  by_cases hE : p.letter = Letter.E ∧ p.acc = 1
  · rw [if_pos hE, (pitchName_eq_Esharp p).mpr hE]
    rfl
  · rw [if_neg hE]
    have h1 : (pitchName p == "E#") = false :=
      beq_eq_false_iff_ne.mpr fun hh => hE ((pitchName_eq_Esharp p).mp hh)
    by_cases hB : p.letter = Letter.B ∧ p.acc = 1
    · rw [if_pos hB, (pitchName_eq_Bsharp p).mpr hB]
      rfl
    · rw [if_neg hB]
      have h2 : (pitchName p == "B#") = false :=
        beq_eq_false_iff_ne.mpr fun hh => hB ((pitchName_eq_Bsharp p).mp hh)
      have h3 : (pitchName p == "Cb") = false :=
        beq_eq_false_iff_ne.mpr (pitchName_ne_Cb p)
      have h4 : (pitchName p == "Fb") = false :=
        beq_eq_false_iff_ne.mpr (pitchName_ne_Fb p)
      simp [ENHARM_MAP, List.lookup, h1, h2, h3, h4]

/-- fix_enharmonic_spelling factored through its live branches. -/
theorem fix_eq_cases (p : Pitch) :
    fix_enharmonic_spelling p = forceDisplay (enharmStep p) := by
  unfold fix_enharmonic_spelling forceDisplay enharmStep
  rw [lookup_pitchName]
  by_cases hE : p.letter = Letter.E ∧ p.acc = 1
  · rw [if_pos hE, if_pos hE]
    rfl
  · rw [if_neg hE, if_neg hE]
    by_cases hB : p.letter = Letter.B ∧ p.acc = 1
    · rw [if_pos hB, if_pos hB]
      rfl
    · rw [if_neg hB, if_neg hB]

/-- C5 (code bug): the flat entries of ENHARM_MAP are dead.  music21
names C flat 4 as C-, ENHARM_MAP has no such key, so the program
leaves C flat 4 as letter C, accidental -1, octave 4 (forcing only its
display fields) instead of the claimed B3, and F flat likewise stays F
flat; the E sharp and B sharp rewrites are live and behave as the
claim says. -/
theorem c5_flat_entries_dead (ds : Option Bool) (dt : String) (oc : Int) :
    pitchName ⟨Letter.C, -1, 4, ds, dt⟩ = "C-" ∧
    ENHARM_MAP.lookup "C-" = none ∧
    ENHARM_MAP.lookup "F-" = none ∧
    fix_enharmonic_spelling ⟨Letter.C, -1, 4, ds, dt⟩ =
      ⟨Letter.C, -1, 4, some true, "normal"⟩ ∧
    fix_enharmonic_spelling ⟨Letter.F, -1, oc, ds, dt⟩ =
      ⟨Letter.F, -1, oc, some true, "normal"⟩ ∧
    fix_enharmonic_spelling ⟨Letter.B, 1, 4, ds, dt⟩ = ⟨Letter.C, 0, 5, ds, dt⟩ ∧
    fix_enharmonic_spelling ⟨Letter.E, 1, oc, ds, dt⟩ = ⟨Letter.F, 0, oc, ds, dt⟩ := by
  refine ⟨rfl, rfl, rfl, ?_, ?_, ?_, ?_⟩ <;>
    simp [fix_eq_cases, enharmStep, forceDisplay]

/-- C6: the canonicalizer is idempotent; no rewrite-table target is
itself a table key, and the display forcing is a fixed point. -/
theorem c6_canonicalize_idempotent (p : Pitch) :
    fix_enharmonic_spelling (fix_enharmonic_spelling p) = fix_enharmonic_spelling p := by
  rw [fix_eq_cases, fix_eq_cases]
  obtain ⟨l, a, o, ds, dt⟩ := p
  cases l <;> by_cases h1 : a = 1 <;> by_cases h3 : a = 0 <;>
    simp_all [enharmStep, forceDisplay]

/-- C9 counterexample: G flat 4 matches no rewrite-table entry, yet the
call does not leave it entirely unchanged; its accidental display
status is forced from none to some true. -/
theorem c9_counterexample :
    fix_enharmonic_spelling ⟨Letter.G, -1, 4, none, "normal"⟩ ≠
      ⟨Letter.G, -1, 4, none, "normal"⟩ := by
  intro h
  have h2 := congrArg Pitch.displayStatus h
  rw [fix_eq_cases] at h2
  simp [enharmStep, forceDisplay] at h2

/-- C9 amended: for every pitch whose (letter, accidental) pair is not
one of the four rewrite-table entries, canonicalization keeps the
letter, accidental and octave unchanged; a pitch with accidental 0 is
returned entirely unchanged, while a pitch with a nonzero accidental
additionally gets its display fields forced to (some true, normal). -/
theorem c9_passthrough_amended (p : Pitch)
    (h : ¬ ((p.letter = Letter.E ∧ p.acc = 1) ∨ (p.letter = Letter.B ∧ p.acc = 1) ∨
            (p.letter = Letter.C ∧ p.acc = -1) ∨ (p.letter = Letter.F ∧ p.acc = -1))) :
    (fix_enharmonic_spelling p).letter = p.letter ∧
    (fix_enharmonic_spelling p).acc = p.acc ∧
    (fix_enharmonic_spelling p).octave = p.octave ∧
    (p.acc = 0 → fix_enharmonic_spelling p = p) ∧
    (p.acc ≠ 0 → (fix_enharmonic_spelling p).displayStatus = some true ∧
      (fix_enharmonic_spelling p).displayType = "normal") := by
  obtain ⟨l, a, o, ds, dt⟩ := p
  push_neg at h
  simp only [fix_eq_cases, enharmStep, forceDisplay]
  cases l <;> split_ifs <;> simp_all

theorem c9_passthrough_amended_witness :
    (fix_enharmonic_spelling ⟨Letter.G, -1, 4, none, "normal"⟩).letter = Letter.G ∧
    (fix_enharmonic_spelling ⟨Letter.G, -1, 4, none, "normal"⟩).acc = -1 ∧
    (fix_enharmonic_spelling ⟨Letter.G, -1, 4, none, "normal"⟩).octave = 4 ∧
    ((Pitch.mk Letter.G (-1) 4 none "normal").acc = 0 →
      fix_enharmonic_spelling ⟨Letter.G, -1, 4, none, "normal"⟩ =
        ⟨Letter.G, -1, 4, none, "normal"⟩) ∧
    ((Pitch.mk Letter.G (-1) 4 none "normal").acc ≠ 0 →
      (fix_enharmonic_spelling ⟨Letter.G, -1, 4, none, "normal"⟩).displayStatus = some true ∧
      (fix_enharmonic_spelling ⟨Letter.G, -1, 4, none, "normal"⟩).displayType = "normal") :=
  c9_passthrough_amended ⟨Letter.G, -1, 4, none, "normal"⟩ (by simp)

/-- C10: canonicalization preserves the absolute semitone height of
every pitch, octave adjustment included. -/
theorem c10_height_preserved (p : Pitch) :
    height (fix_enharmonic_spelling p) = height p := by
  obtain ⟨l, a, o, ds, dt⟩ := p
  simp only [fix_eq_cases, enharmStep, forceDisplay]
  cases l <;> split_ifs <;> simp_all [height, letterSemis] <;> omega

/-- A timed note event: a pitch plus its duration in beats of 4/4 time
(quarter = 1, eighth = 1/2, whole = 4). -/
structure NoteEvent where
  pitch : Pitch
  durationBeats : ℚ
  deriving DecidableEq, Repr

/-- A measure: the optional text label inserted by the source (a
TextExpression on the first measure of a run) and the ordered note
events appended to the measure. -/
structure Measure where
  label : Option String := none
  notes : List NoteEvent := []
  deriving DecidableEq, Repr

/-- Duration list of a measure, in order. -/
def durs (m : Measure) : List ℚ := m.notes.map (fun e => e.durationBeats)

/-- Summed event durations of a measure, in beats. -/
def durSum (m : Measure) : ℚ := (durs m).sum

/-- Embedding of the shared measure-packing loop of
create_scale_measures and create_arpeggio_measures from src/main.py.
Arguments fd and cd are the durations used at a template start and at
a template continuation, npm is notes_per_measure.  The counter k is
the note_counter of the source; in the source note_counter always
equals the loop index i at the top of an iteration (both advance once
per non-terminal iteration and the terminal branch breaks), so the
tests i == 0 appear here as k = 0 and the terminal branch is the
pattern for the last list element.  Every appended note passes through
fix_enharmonic_spelling, the final pitch becomes a whole note (4
beats) in a fresh measure, and an accumulated measure is emitted only
if its notes list is non-empty. -/
def segLoop (fd cd : ℚ) (npm : Nat) (title : String) : Nat → Measure → List Pitch → List Measure
  | _, _, [] => []
  | k, cur, [p] =>
      (if cur.notes = [] then [] else [cur]) ++
        [{ label := if k = 0 then some title else none,
           notes := [⟨fix_enharmonic_spelling p, 4⟩] }]
  | k, cur, p :: q :: ps =>
      if k % npm = 0 then
        (if cur.notes = [] then [] else [cur]) ++
          segLoop fd cd npm title (k + 1)
            { label := if k = 0 then some title else none,
              notes := [⟨fix_enharmonic_spelling p, fd⟩] } (q :: ps)
      else
        segLoop fd cd npm title (k + 1)
          { label := cur.label,
            notes := cur.notes ++ [⟨fix_enharmonic_spelling p, cd⟩] } (q :: ps)

/-- The packing loop of create_scale_measures: notes_per_measure = 7,
one quarter note (1 beat) then six eighth notes (1/2 beat each). -/
def scaleSegment (title : String) (ps : List Pitch) : List Measure :=
  segLoop 1 (1/2) 7 title 0 ⟨none, []⟩ ps

/-- The packing loop of create_arpeggio_measures: notes_per_measure =
8, every non-final note an eighth note (1/2 beat). -/
def arpSegment (title : String) (ps : List Pitch) : List Measure :=
  segLoop (1/2) (1/2) 8 title 0 ⟨none, []⟩ ps

/-- Major scale step pattern: semitone offset of scale degree j within
one octave (whole, whole, half, whole, whole, whole, half). -/
def majorOffsets : List Int := [0, 2, 4, 5, 7, 9, 11]

/-- Modelled from the spec: one pitch of the major-scale enumeration
that src/main.py obtains from the external music21 collaborator via
scale_object.getPitches.  Degree j (0-based) above the tonic advances
j letter names (octave number incrementing at C) and sits at the major
scale semitone offset; the accidental makes the letter reach that
height. -/
def scaleDegreePitch (L : Letter) (A : Int) (octave_start : Int) (j : Nat) : Pitch :=
  { letter := letterOfIdx ((letterIdx L + j) % 7),
    acc := (12 * (octave_start + 1) + letterSemis L + A + 12 * ((j : Int) / 7) +
            majorOffsets.getD (j % 7) 0) -
           (12 * ((octave_start + ((letterIdx L + j) / 7 : Nat)) + 1) +
            letterSemis (letterOfIdx ((letterIdx L + j) % 7))),
    octave := octave_start + ((letterIdx L + j) / 7 : Nat),
    displayStatus := none,
    displayType := "normal" }

/-- Modelled from the spec: the ascending pitch enumeration of the
major scale from the tonic at octave_start up to the tonic at
octave_start + num_octaves inclusive, seven scale-degree pitches per
octave plus the top tonic. -/
def majorScalePitches (L : Letter) (A : Int) (octave_start : Int) (num_octaves : Nat) : List Pitch :=
  (List.range (7 * num_octaves + 1)).map (scaleDegreePitch L A octave_start)

/-- The pitch sequence of create_scale_measures: pitches_up from the
enumerator, then pitches_down = reversed(pitches_up[:-1]), the
descending half omitting the repeated top pitch. -/
def scalePitchSeq (L : Letter) (A : Int) (octave_start : Int) (num_octaves : Nat) : List Pitch :=
  let pitches_up := majorScalePitches L A octave_start num_octaves
  let pitches_down := pitches_up.dropLast.reverse
  pitches_up ++ pitches_down

/-- Embedding of create_scale_measures from src/main.py: build the
ascending plus descending pitch sequence and pack it with the quarter
plus six-eighths template. -/
def create_scale_measures (title : String) (L : Letter) (A : Int)
    (octave_start : Int) (num_octaves : Nat) : List Measure :=
  scaleSegment title (scalePitchSeq L A octave_start num_octaves)

/-- Embedding of the arpeggio_up collection of create_arpeggio_measures:
for each octave o the scale degrees 1, 3, 5 (indices 7o, 7o+2, 7o+4),
and for the last octave also the octave tone (index 7o+7); an
out-of-range index (IndexError in the source) skips that whole octave
because the extend comes after all the lookups in the try block. -/
def arpeggioUp (scale_pitches : List Pitch) (num_octaves : Nat) : List Pitch :=
  (List.range num_octaves).foldl (fun acc o =>
    if o < num_octaves - 1 then
      match scale_pitches.get? (7 * o), scale_pitches.get? (7 * o + 2),
            scale_pitches.get? (7 * o + 4) with
      | some root, some third, some fifth => acc ++ [root, third, fifth]
      | _, _, _ => acc
    else
      match scale_pitches.get? (7 * o), scale_pitches.get? (7 * o + 2),
            scale_pitches.get? (7 * o + 4), scale_pitches.get? (7 * o + 7) with
      | some root, some third, some fifth, some octave_tone =>
          acc ++ [root, third, fifth, octave_tone]
      | _, _, _, _ => acc) []

/-- The pitch sequence of create_arpeggio_measures: arpeggio_up over
the enumerated scale pitches, then the reversed ascending list with
its final element dropped (empty when arpeggio_up has at most one
element). -/
def arpPitchSeq (L : Letter) (A : Int) (octave_start : Int) (num_octaves : Nat) : List Pitch :=
  let scale_pitches := majorScalePitches L A octave_start num_octaves
  let arpeggio_up := arpeggioUp scale_pitches num_octaves
  let arpeggio_down := if arpeggio_up.length > 1 then arpeggio_up.dropLast.reverse else []
  arpeggio_up ++ arpeggio_down

/-- Embedding of create_arpeggio_measures from src/main.py: build the
arpeggio pitch sequence and pack it with the eight-eighths template. -/
def create_arpeggio_measures (title : String) (L : Letter) (A : Int)
    (octave_start : Int) (num_octaves : Nat) : List Measure :=
  arpSegment title (arpPitchSeq L A octave_start num_octaves)

/-- C8: a pitch sequence of length exactly 1 produces exactly one
measure holding one whole-duration event, with the label attached to
that single measure. -/
theorem c8_single_pitch (title : String) (ps : List Pitch) (h : ps.length = 1) :
    (scaleSegment title ps).length = 1 ∧
    (scaleSegment title ps).map (fun m => m.label) = [some title] ∧
    (scaleSegment title ps).map (fun m => durs m) = [[4]] := by
  obtain ⟨p, rfl⟩ := List.length_eq_one.mp h
  exact ⟨rfl, rfl, rfl⟩

theorem c8_single_pitch_witness :
    (scaleSegment "C Major Scale" [⟨Letter.C, 0, 4, none, "normal"⟩]).length = 1 ∧
    (scaleSegment "C Major Scale" [⟨Letter.C, 0, 4, none, "normal"⟩]).map (fun m => m.label) =
      [some "C Major Scale"] ∧
    (scaleSegment "C Major Scale" [⟨Letter.C, 0, 4, none, "normal"⟩]).map (fun m => durs m) =
      [[4]] :=
  c8_single_pitch "C Major Scale" [⟨Letter.C, 0, 4, none, "normal"⟩] rfl

/-- C1: a pitch sequence of length 15 under the quarter plus six
eighths template yields exactly 3 measures: two measures of seven
events (one quarter, six eighths), a final single whole-duration
measure, and the label only on the first measure. -/
theorem c1_scale_segmentation_15 (title : String) (ps : List Pitch) (h : ps.length = 15) :
    (scaleSegment title ps).map (fun m => durs m) =
      [[1, 1/2, 1/2, 1/2, 1/2, 1/2, 1/2], [1, 1/2, 1/2, 1/2, 1/2, 1/2, 1/2], [4]] ∧
    (scaleSegment title ps).map (fun m => m.label) = [some title, none, none] := by
  rcases ps with _ | ⟨p0, ps⟩; · simp at h
  rcases ps with _ | ⟨p1, ps⟩; · simp at h
  rcases ps with _ | ⟨p2, ps⟩; · simp at h
  rcases ps with _ | ⟨p3, ps⟩; · simp at h
  rcases ps with _ | ⟨p4, ps⟩; · simp at h
  rcases ps with _ | ⟨p5, ps⟩; · simp at h
  rcases ps with _ | ⟨p6, ps⟩; · simp at h
  rcases ps with _ | ⟨p7, ps⟩; · simp at h
  rcases ps with _ | ⟨p8, ps⟩; · simp at h
  rcases ps with _ | ⟨p9, ps⟩; · simp at h
  rcases ps with _ | ⟨p10, ps⟩; · simp at h
  rcases ps with _ | ⟨p11, ps⟩; · simp at h
  rcases ps with _ | ⟨p12, ps⟩; · simp at h
  rcases ps with _ | ⟨p13, ps⟩; · simp at h
  rcases ps with _ | ⟨p14, ps⟩; · simp at h
  rcases ps with _ | ⟨p15, ps⟩
  · exact ⟨rfl, rfl⟩
  · simp at h

theorem c1_scale_segmentation_15_witness :
    (scaleSegment "t" (List.replicate 15 ⟨Letter.C, 0, 4, none, "normal"⟩)).map
        (fun m => durs m) =
      [[1, 1/2, 1/2, 1/2, 1/2, 1/2, 1/2], [1, 1/2, 1/2, 1/2, 1/2, 1/2, 1/2], [4]] ∧
    (scaleSegment "t" (List.replicate 15 ⟨Letter.C, 0, 4, none, "normal"⟩)).map
        (fun m => m.label) = [some "t", none, none] :=
  c1_scale_segmentation_15 "t" (List.replicate 15 ⟨Letter.C, 0, 4, none, "normal"⟩) rfl

/-- C3: for a major scale with octaveSpan 1 the ascending enumeration
has 8 pitches and the full sequence 15; in general the ascending half
has 7 times octaveSpan plus 1 pitches and the sequence appends the
reversed ascending half with only its top pitch dropped, for a total
of (7 span + 1) + 7 span. -/
theorem c3_scale_pitch_lengths (L : Letter) (A : Int) (o : Int) :
    (majorScalePitches L A o 1).length = 8 ∧
    (scalePitchSeq L A o 1).length = 15 ∧
    ∀ n : Nat,
      (majorScalePitches L A o n).length = 7 * n + 1 ∧
      scalePitchSeq L A o n =
        majorScalePitches L A o n ++ (majorScalePitches L A o n).dropLast.reverse ∧
      (scalePitchSeq L A o n).length = (7 * n + 1) + 7 * n := by
  refine ⟨?_, ?_, fun n => ⟨?_, rfl, ?_⟩⟩ <;>
    simp [scalePitchSeq, majorScalePitches]

/-- C7: for an arpeggio over two octaves of a major scale the ascending
collection is root, third, fifth of the first octave then root, third,
fifth and octave tone of the second (7 pitches); the descending half
is the reversed ascending list with its final element dropped, and the
full sequence has 13 pitches. -/
theorem c7_arpeggio_span2 (L : Letter) (A : Int) (o : Int) :
    arpeggioUp (majorScalePitches L A o 2) 2 =
      [scaleDegreePitch L A o 0, scaleDegreePitch L A o 2, scaleDegreePitch L A o 4,
       scaleDegreePitch L A o 7, scaleDegreePitch L A o 9, scaleDegreePitch L A o 11,
       scaleDegreePitch L A o 14] ∧
    (arpeggioUp (majorScalePitches L A o 2) 2).length = 7 ∧
    arpPitchSeq L A o 2 =
      arpeggioUp (majorScalePitches L A o 2) 2 ++
        (arpeggioUp (majorScalePitches L A o 2) 2).dropLast.reverse ∧
    (arpPitchSeq L A o 2).length = 13 :=
  ⟨rfl, rfl, rfl, rfl⟩

/-- C4 counterexample: with octaveSpan 0 (the contract violation the
claim says must fail fast with no Measure produced) the scale
generator raises nothing and emits a measure. -/
theorem c4_counterexample :
    create_scale_measures "t" Letter.C 0 4 0 ≠ [] := by
  intro h
  have h2 := congrArg List.length h
  simp only [List.length_nil] at h2
  exact absurd h2 (by decide)

/-- C4 amended: the code performs no octaveSpan validation and has no
error path; with octaveSpan 0 create_scale_measures returns exactly
one whole-duration measure and create_arpeggio_measures returns the
empty measure list, for every tonic and octave start (an unrecognized
tonic letter is not representable in the embedding). -/
theorem c4_no_validation (title : String) (L : Letter) (A : Int) (o : Int) :
    (create_scale_measures title L A o 0).length = 1 ∧
    (create_scale_measures title L A o 0).map (fun m => durs m) = [[4]] ∧
    create_arpeggio_measures title L A o 0 = [] :=
  ⟨rfl, rfl, rfl⟩

/-- Stepping a counter that is not at a template boundary back one slot
steps its cyclic position back one. -/
theorem modPredSucc (k npm : Nat) (hpos : 0 < npm) (h : k % npm ≠ 0) :
    (k - 1) % npm + 1 = k % npm := by
  obtain ⟨q, r, hrlt, hr1, rfl⟩ : ∃ q r, r < npm ∧ 1 ≤ r ∧ k = npm * q + r :=
    ⟨k / npm, k % npm, Nat.mod_lt k hpos, Nat.one_le_iff_ne_zero.mpr h,
      (Nat.div_add_mod k npm).symm⟩
  have e1 : npm * q + r - 1 = npm * q + (r - 1) := Nat.add_sub_assoc hr1 _
  rw [e1, Nat.mul_add_mod, Nat.mul_add_mod,
    Nat.mod_eq_of_lt (show r - 1 < npm by omega), Nat.mod_eq_of_lt hrlt]
  omega

/-- At a nonzero multiple of npm, the previous cyclic position is the
last slot of the template. -/
theorem modFull (k npm : Nat) (hpos : 0 < npm) (hk0 : k ≠ 0) (h : k % npm = 0) :
    (k - 1) % npm + 1 = npm := by
  obtain ⟨q, rfl⟩ := Nat.dvd_of_mod_eq_zero h
  have hq : q ≠ 0 := by rintro rfl; simp at hk0
  obtain ⟨q2, rfl⟩ : ∃ q2, q = q2 + 1 := ⟨q - 1, by omega⟩
  have e1 : npm * (q2 + 1) - 1 = npm * q2 + (npm - 1) := by
    rw [Nat.mul_succ]
    exact Nat.add_sub_assoc (by omega) _
  rw [e1, Nat.mul_add_mod, Nat.mod_eq_of_lt (by omega)]
  omega

/-- A measure filled with the template-start duration and at most
npm - 1 continuation durations does not exceed the full template sum. -/
theorem fillBound_le (fd cd : ℚ) (npm mlen : Nat) (hcd : 0 ≤ cd)
    (hfill : fd + ((npm - 1 : Nat) : ℚ) * cd = 4) (hm : mlen ≤ npm) :
    fd + ((mlen - 1 : Nat) : ℚ) * cd ≤ 4 := by
  have h1 : ((mlen - 1 : Nat) : ℚ) ≤ ((npm - 1 : Nat) : ℚ) := by
    exact_mod_cast Nat.sub_le_sub_right hm 1
  nlinarith [mul_le_mul_of_nonneg_right h1 hcd]

/-- Appending one continuation note keeps the counter-to-length loop
invariant of segLoop. -/
theorem stepLen (npm : Nat) (hpos : 0 < npm) (k : Nat) (cur : Measure) (e : NoteEvent)
    (hk : ¬ k % npm = 0)
    (hlen : cur.notes.length = (if k = 0 then 0 else (k - 1) % npm + 1)) :
    (cur.notes ++ [e]).length = (if k + 1 = 0 then 0 else (k + 1 - 1) % npm + 1) := by
  have hk0 : k ≠ 0 := fun hv => hk (by simp [hv])
  have hstep := modPredSucc k npm hpos hk
  simp only [List.length_append, List.length_cons, List.length_nil]
  rw [hlen, if_neg hk0, if_neg (Nat.succ_ne_zero k)]
  simp only [Nat.add_sub_cancel]
  set r1 := k % npm with h1
  set r2 := (k - 1) % npm with h2
  omega

/-- Appending one continuation note keeps the duration-sum loop
invariant of segLoop. -/
theorem stepSum (fd cd : ℚ) (cur : Measure) (e : NoteEvent) (hdur : e.durationBeats = cd)
    (hcur : ¬ cur.notes = [])
    (hsum : durSum cur =
      (if cur.notes = [] then 0 else fd + ((cur.notes.length - 1 : Nat) : ℚ) * cd)) :
    durSum { label := cur.label, notes := cur.notes ++ [e] } =
      (if cur.notes ++ [e] = [] then 0
       else fd + (((cur.notes ++ [e]).length - 1 : Nat) : ℚ) * cd) := by
  have hlen1 : 1 ≤ cur.notes.length := List.length_pos.mpr hcur
  rw [if_neg (by simp)]
  rw [if_neg hcur] at hsum
  simp only [durSum, durs] at hsum ⊢
  simp only [List.map_append, List.sum_append, List.map_cons, List.map_nil,
    List.sum_cons, List.sum_nil, List.length_append, List.length_cons, List.length_nil,
    Nat.zero_add, Nat.add_sub_cancel]
  rw [hsum, hdur, Nat.cast_sub hlen1]
  push_cast
  ring

/-- The packing loop always ends with a measure holding exactly one
whole-duration (4 beat) event, for every non-empty pitch list. -/
theorem segLoop_last (fd cd : ℚ) (npm : Nat) (title : String) :
    ∀ (ps : List Pitch) (k : Nat) (cur : Measure), ps ≠ [] →
      ∃ pre lm, segLoop fd cd npm title k cur ps = pre ++ [lm] ∧ durs lm = [4] := by
  intro ps
  induction ps with
  | nil => intro k cur h; exact absurd rfl h
  | cons p ps ih =>
    intro k cur _
    cases ps with
    | nil =>
      exact ⟨if cur.notes = [] then [] else [cur],
        { label := if k = 0 then some title else none,
          notes := [⟨fix_enharmonic_spelling p, 4⟩] }, rfl, rfl⟩
    | cons q ps2 =>
      simp only [segLoop]
      by_cases hk : k % npm = 0
      · rw [if_pos hk]
        obtain ⟨pre, lm, he, hd⟩ := ih (k + 1)
          { label := if k = 0 then some title else none,
            notes := [⟨fix_enharmonic_spelling p, fd⟩] } (by simp)
        exact ⟨(if cur.notes = [] then [] else [cur]) ++ pre, lm,
          by rw [he, List.append_assoc], hd⟩
      · rw [if_neg hk]
        exact ih (k + 1)
          { label := cur.label,
            notes := cur.notes ++ [⟨fix_enharmonic_spelling p, cd⟩] } (by simp)

/-- Starting from a non-empty accumulator and a non-empty pitch list,
the packing loop emits at least two measures. -/
theorem segLoop_len_two (fd cd : ℚ) (npm : Nat) (title : String) :
    ∀ (ps : List Pitch) (k : Nat) (cur : Measure), ps ≠ [] → ¬ cur.notes = [] →
      2 ≤ (segLoop fd cd npm title k cur ps).length := by
  intro ps
  induction ps with
  | nil => intro k cur h _; exact absurd rfl h
  | cons p ps ih =>
    intro k cur _ hcur
    cases ps with
    | nil => simp [segLoop, hcur]
    | cons q ps2 =>
      simp only [segLoop]
      by_cases hk : k % npm = 0
      · rw [if_pos hk]
        obtain ⟨pre, lm, he, _⟩ := segLoop_last fd cd npm title (q :: ps2) (k + 1)
          { label := if k = 0 then some title else none,
            notes := [⟨fix_enharmonic_spelling p, fd⟩] } (by simp)
        rw [he, if_neg hcur]
        simp
      · rw [if_neg hk]
        exact ih (k + 1)
          { label := cur.label,
            notes := cur.notes ++ [⟨fix_enharmonic_spelling p, cd⟩] } (by simp) (by simp)

/-- Under the segLoop invariant, every emitted measure has summed
duration at most 4 beats. -/
theorem segLoop_bounded (fd cd : ℚ) (npm : Nat) (title : String)
    (hpos : 0 < npm) (hcd : 0 ≤ cd)
    (hfill : fd + ((npm - 1 : Nat) : ℚ) * cd = 4) :
    ∀ (ps : List Pitch) (k : Nat) (cur : Measure),
      cur.notes.length = (if k = 0 then 0 else (k - 1) % npm + 1) →
      durSum cur =
        (if cur.notes = [] then 0 else fd + ((cur.notes.length - 1 : Nat) : ℚ) * cd) →
      ∀ m ∈ segLoop fd cd npm title k cur ps, durSum m ≤ 4 := by
  intro ps
  induction ps with
  | nil => intro k cur _ _ m hm; simp [segLoop] at hm
  | cons p ps ih =>
    intro k cur hlen hsum m hm
    cases ps with
    | nil =>
      by_cases hcur : cur.notes = []
      · simp [segLoop, hcur] at hm
        subst hm
        simp [durSum, durs]
      · simp [segLoop, hcur] at hm
        rcases hm with hm2 | hm2
        · have hk0 : k ≠ 0 := by
            rintro rfl
            simp only [if_pos rfl] at hlen
            exact hcur (List.length_eq_zero.mp hlen)
          rw [hm2, hsum, if_neg hcur]
          apply fillBound_le fd cd npm cur.notes.length hcd hfill
          rw [hlen, if_neg hk0]
          have := Nat.mod_lt (k - 1) hpos
          omega
        · rw [hm2]
          simp [durSum, durs]
    | cons q ps2 =>
      simp only [segLoop] at hm
      by_cases hk : k % npm = 0
      · rw [if_pos hk] at hm
        by_cases hcur : cur.notes = []
        · rw [if_pos hcur] at hm
          simp only [List.nil_append] at hm
          exact ih (k + 1)
            { label := if k = 0 then some title else none,
              notes := [⟨fix_enharmonic_spelling p, fd⟩] }
            (by simp [hk]) (by simp [durSum, durs]) m hm
        · rw [if_neg hcur] at hm
          have hk0 : k ≠ 0 := by
            rintro rfl
            simp only [if_pos rfl] at hlen
            exact hcur (List.length_eq_zero.mp hlen)
          rcases List.mem_append.mp hm with h1 | h2
          · have hm2 : m = cur := by simpa using h1
            rw [hm2, hsum, if_neg hcur]
            have hfull : cur.notes.length = npm := by
              rw [hlen, if_neg hk0]
              exact modFull k npm hpos hk0 hk
            rw [hfull, hfill]
          · exact ih (k + 1)
              { label := if k = 0 then some title else none,
                notes := [⟨fix_enharmonic_spelling p, fd⟩] }
              (by simp [hk]) (by simp [durSum, durs]) m h2
      · rw [if_neg hk] at hm
        have hk0 : k ≠ 0 := fun hv => hk (by simp [hv])
        have hcur : ¬ cur.notes = [] := by
          intro hnil
          rw [hnil] at hlen
          simp [hk0] at hlen
        exact ih (k + 1)
          { label := cur.label,
            notes := cur.notes ++ [⟨fix_enharmonic_spelling p, cd⟩] }
          (stepLen npm hpos k cur _ hk hlen)
          (stepSum fd cd cur _ rfl hcur hsum) m hm

/-- Under the segLoop invariant, every emitted measure other than the
last two (the possibly underfilled penultimate measure and the final
whole-note measure) is exactly full: its durations sum to 4 beats. -/
theorem segLoop_full (fd cd : ℚ) (npm : Nat) (title : String)
    (hpos : 0 < npm)
    (hfill : fd + ((npm - 1 : Nat) : ℚ) * cd = 4) :
    ∀ (ps : List Pitch) (k : Nat) (cur : Measure),
      cur.notes.length = (if k = 0 then 0 else (k - 1) % npm + 1) →
      durSum cur =
        (if cur.notes = [] then 0 else fd + ((cur.notes.length - 1 : Nat) : ℚ) * cd) →
      ∀ m ∈ (segLoop fd cd npm title k cur ps).take
          ((segLoop fd cd npm title k cur ps).length - 2),
        durSum m = 4 := by
  intro ps
  induction ps with
  | nil => intro k cur _ _ m hm; simp [segLoop] at hm
  | cons p ps ih =>
    intro k cur hlen hsum m hm
    cases ps with
    | nil =>
      by_cases hcur : cur.notes = [] <;> simp [segLoop, hcur] at hm
    | cons q ps2 =>
      simp only [segLoop] at hm
      by_cases hk : k % npm = 0
      · rw [if_pos hk] at hm
        by_cases hcur : cur.notes = []
        · rw [if_pos hcur] at hm
          simp only [List.nil_append] at hm
          exact ih (k + 1)
            { label := if k = 0 then some title else none,
              notes := [⟨fix_enharmonic_spelling p, fd⟩] }
            (by simp [hk]) (by simp [durSum, durs]) m hm
        · rw [if_neg hcur] at hm
          have hk0 : k ≠ 0 := by
            rintro rfl
            simp only [if_pos rfl] at hlen
            exact hcur (List.length_eq_zero.mp hlen)
          have hfull : cur.notes.length = npm := by
            rw [hlen, if_neg hk0]
            exact modFull k npm hpos hk0 hk
          have hih := ih (k + 1)
            { label := if k = 0 then some title else none,
              notes := [⟨fix_enharmonic_spelling p, fd⟩] }
            (by simp [hk]) (by simp [durSum, durs])
          have hr2 := segLoop_len_two fd cd npm title (q :: ps2) (k + 1)
            { label := if k = 0 then some title else none,
              notes := [⟨fix_enharmonic_spelling p, fd⟩] } (by simp) (by simp)
          set rest := segLoop fd cd npm title (k + 1)
            { label := if k = 0 then some title else none,
              notes := [⟨fix_enharmonic_spelling p, fd⟩] } (q :: ps2) with hrest
          rw [List.singleton_append, List.length_cons] at hm
          rw [show rest.length + 1 - 2 = (rest.length - 2) + 1 from by omega,
            List.take_succ_cons] at hm
          rcases List.mem_cons.mp hm with hm3 | hm3
          · rw [hm3, hsum, if_neg hcur, hfull, hfill]
          · exact hih m hm3
      · rw [if_neg hk] at hm
        have hk0 : k ≠ 0 := fun hv => hk (by simp [hv])
        have hcur : ¬ cur.notes = [] := by
          intro hnil
          rw [hnil] at hlen
          simp [hk0] at hlen
        exact ih (k + 1)
          { label := cur.label,
            notes := cur.notes ++ [⟨fix_enharmonic_spelling p, cd⟩] }
          (stepLen npm hpos k cur _ hk hlen)
          (stepSum fd cd cur _ rfl hcur hsum) m hm

/-- C2: for every non-empty pitch sequence, both the scale packing and
the arpeggio packing emit measures whose summed durations never exceed
the declared 4-beat meter capacity; the final measure is a single
whole-duration (4 beat) event; and every measure before the last two
sums to exactly 4 beats, so only the penultimate measure can be
underfilled when the remaining pitches do not fill the template. -/
theorem c2_measure_capacity (title : String) (ps : List Pitch) (h : ps ≠ []) :
    (∀ m ∈ scaleSegment title ps, durSum m ≤ 4) ∧
    (∃ pre lm, scaleSegment title ps = pre ++ [lm] ∧ durs lm = [4]) ∧
    (∀ m ∈ (scaleSegment title ps).take ((scaleSegment title ps).length - 2),
      durSum m = 4) ∧
    (∀ m ∈ arpSegment title ps, durSum m ≤ 4) ∧
    (∃ pre lm, arpSegment title ps = pre ++ [lm] ∧ durs lm = [4]) ∧
    (∀ m ∈ (arpSegment title ps).take ((arpSegment title ps).length - 2),
      durSum m = 4) := by
  refine ⟨?_, ?_, ?_, ?_, ?_, ?_⟩
  · exact segLoop_bounded 1 (1/2) 7 title (by norm_num) (by norm_num) (by norm_num)
      ps 0 ⟨none, []⟩ (by simp) (by simp [durSum, durs])
  · exact segLoop_last 1 (1/2) 7 title ps 0 ⟨none, []⟩ h
  · exact segLoop_full 1 (1/2) 7 title (by norm_num) (by norm_num)
      ps 0 ⟨none, []⟩ (by simp) (by simp [durSum, durs])
  · exact segLoop_bounded (1/2) (1/2) 8 title (by norm_num) (by norm_num) (by norm_num)
      ps 0 ⟨none, []⟩ (by simp) (by simp [durSum, durs])
  · exact segLoop_last (1/2) (1/2) 8 title ps 0 ⟨none, []⟩ h
  · exact segLoop_full (1/2) (1/2) 8 title (by norm_num) (by norm_num)
      ps 0 ⟨none, []⟩ (by simp) (by simp [durSum, durs])

theorem c2_measure_capacity_witness :
    (∀ m ∈ scaleSegment "t" [⟨Letter.C, 0, 4, none, "normal"⟩], durSum m ≤ 4) ∧
    (∃ pre lm, scaleSegment "t" [⟨Letter.C, 0, 4, none, "normal"⟩] = pre ++ [lm] ∧
      durs lm = [4]) ∧
    (∀ m ∈ (scaleSegment "t" [⟨Letter.C, 0, 4, none, "normal"⟩]).take
        ((scaleSegment "t" [⟨Letter.C, 0, 4, none, "normal"⟩]).length - 2),
      durSum m = 4) ∧
    (∀ m ∈ arpSegment "t" [⟨Letter.C, 0, 4, none, "normal"⟩], durSum m ≤ 4) ∧
    (∃ pre lm, arpSegment "t" [⟨Letter.C, 0, 4, none, "normal"⟩] = pre ++ [lm] ∧
      durs lm = [4]) ∧
    (∀ m ∈ (arpSegment "t" [⟨Letter.C, 0, 4, none, "normal"⟩]).take
        ((arpSegment "t" [⟨Letter.C, 0, 4, none, "normal"⟩]).length - 2),
      durSum m = 4) :=
  c2_measure_capacity "t" [⟨Letter.C, 0, 4, none, "normal"⟩] (by simp)
